import Mathlib

/-!
Shallow embedding of the linguistic-search core of `app.py` (class
`CorpusManager` and the verb-form search route): corpus data model,
derived index construction, the morphological feature decoder, the
diacritic-aware pattern compiler and matcher, and the query operations.
Python dicts with optional keys are embedded as structures with `Option`
fields; Python sets as first-occurrence-deduplicated lists; the stable
Python `sorted` as `List.insertionSort` (stable); re-module matchers as an
explicit slot AST plus a greedy backtracking matcher with the same
semantics as the generated regex.
-/

/-- Whitespace test modelling the Python whitespace notion used by
`str.strip`, `str.lower` contexts and the regex class `\s` (ASCII
whitespace, the C1 separators, NEL, NBSP and the Unicode space block). -/
def pySpaceB (c : Char) : Bool :=
  let n := c.val.toNat
  (9 ≤ n && n ≤ 13) || n = 32 || (28 ≤ n && n ≤ 31) || n = 0x85 || n = 0xA0 ||
  n = 0x1680 || (0x2000 ≤ n && n ≤ 0x200A) || n = 0x2028 || n = 0x2029 ||
  n = 0x202F || n = 0x205F || n = 0x3000

/-- Drop leading characters satisfying `p`. -/
def dropLeading (p : Char → Bool) : List Char → List Char
  | [] => []
  | c :: rest => if p c then dropLeading p rest else c :: rest

/-- Embeds Python `str.strip()` on the character list. -/
def pyStripL (l : List Char) : List Char :=
  ((dropLeading pySpaceB ((dropLeading pySpaceB l).reverse)).reverse)

/-- Embeds Python `str.strip()`. -/
def pyStrip (s : String) : String := String.mk (pyStripL s.data)

/-- Embeds Python `str.lower()` (ASCII range, which covers the POS codes
and feature strings the code lowercases; Arabic letters are unaffected by
either implementation). -/
def lowerS (s : String) : String := String.mk (s.data.map Char.toLower)

/-- Embeds Python `str.upper()` (ASCII range, as for `lowerS`). -/
def upperS (s : String) : String := String.mk (s.data.map Char.toUpper)

/-- Boolean list-prefix test. -/
def listPrefixOfB [DecidableEq α] : List α → List α → Bool
  | [], _ => true
  | _ :: _, [] => false
  | a :: as, b :: bs => a = b && listPrefixOfB as bs

/-- Boolean list-infix test: `needle` occurs contiguously inside the second
list. Embeds the Python substring operator `in`. -/
def listInfixOf [DecidableEq α] (needle : List α) : List α → Bool
  | [] => listPrefixOfB needle []
  | b :: bs => listPrefixOfB needle (b :: bs) || listInfixOf needle bs

/-- Embeds Python `needle in hay` on strings. -/
def strContains (hay needle : String) : Bool := listInfixOf needle.data hay.data

/-- Embeds Python `hay.endswith(needle)`. -/
def strEndsWith (hay needle : String) : Bool :=
  listPrefixOfB needle.data.reverse hay.data.reverse

/-- Embeds Python `sep.join(parts)`. -/
def joinWith (sep : String) : List String → String
  | [] => ""
  | [x] => x
  | x :: xs => x ++ sep ++ joinWith sep xs

/-- Code-point comparison of character lists, the order Python uses to
compare strings. -/
def charListLe : List Char → List Char → Bool
  | [], _ => true
  | _ :: _, [] => false
  | a :: as, b :: bs =>
    if a.val.toNat < b.val.toNat then true
    else if b.val.toNat < a.val.toNat then false
    else charListLe as bs

/-- Python string `<=` (code-point lexicographic). -/
def strLe (a b : String) : Bool := charListLe a.data b.data

/-- Python tuple comparison on (surah, ayah) pairs. -/
def pairLe (a b : Nat × Nat) : Bool :=
  a.1 < b.1 || (a.1 = b.1 && a.2 ≤ b.2)

/-- Deduplication keeping the FIRST occurrence of each element, the order
in which Python inserts keys into a dict or set. -/
def dedupFirst [DecidableEq α] : List α → List α
  | [] => []
  | a :: rest => a :: (dedupFirst rest).filter (fun b => b ≠ a)

/-- Deduplication of keyed pairs keeping the first pair for each key:
models first-insertion-wins `dict.setdefault` enumeration order. -/
def dedupKeyed [DecidableEq κ] : List (κ × α) → List (κ × α)
  | [] => []
  | (k, a) :: rest => (k, a) :: (dedupKeyed rest).filter (fun p => p.1 ≠ k)

/-- Maximal runs of characters not satisfying `p`, accumulator form. -/
def wordsByAux (p : Char → Bool) : List Char → List Char → List (List Char)
  | [], acc => if acc = [] then [] else [acc.reverse]
  | c :: rest, acc =>
    if p c then
      (if acc = [] then wordsByAux p rest [] else acc.reverse :: wordsByAux p rest [])
    else wordsByAux p rest (c :: acc)

/-- Splits a character list into the maximal runs of non-separator
characters. Embeds `re.split(cls + "+", s)` followed by the removal of
empty pieces that the calling list comprehensions perform. -/
def wordsBy (p : Char → Bool) (l : List Char) : List (List Char) := wordsByAux p l []

/-- Segment record: the unit of morphological annotation
(`token["segments"][i]` in `app.py`); absent dict keys are `none`. -/
structure Segment where
  type : Option String := none
  pos : Option String := none
  root : Option String := none
  lemma_ : Option String := none
  features : Option String := none
deriving DecidableEq, Repr

/-- Token record (`verse["tokens"][i]`). -/
structure Token where
  form : Option String := none
  pos : Option String := none
  segments : List Segment := []
deriving DecidableEq, Repr

/-- Verse record: `verse["surah"]["number"]`, `verse["ayah"]`,
`verse["text"]`, `verse["tokens"]`. -/
structure Verse where
  surah : Nat
  ayah : Nat
  text : String := ""
  tokens : List Token := []
deriving DecidableEq, Repr

/-- A corpus is the ordered list of loaded verses (`self.verses`). -/
abbrev Corpus := List Verse

/-- Location key of a verse, `(surah_num, ayah_num)`. -/
def verseKey (v : Verse) : Nat × Nat := (v.surah, v.ayah)

/-- Embeds `self.verse_lookup[(surah, ayah)]` built in `build_surah_index`:
a dict where a later verse with the same key overwrites an earlier one. -/
def verseLookup (c : Corpus) (k : Nat × Nat) : Option Verse :=
  match c with
  | [] => none
  | v :: rest =>
    match verseLookup rest k with
    | some u => some u
    | none => if verseKey v = k then some v else none

/-- Trimmed root of a segment: `(segment.get("root") or "").strip()`. -/
def segTrimRoot (s : Segment) : String := pyStrip (s.root.getD "")

/-- Does the verse contain a segment whose trimmed root equals `r`?  For
nonempty `r` this is exactly the condition under which
`build_linguistic_indexes` adds the verse location to `root_map[r]`. -/
def verseHasRootB (r : String) (v : Verse) : Bool :=
  v.tokens.any fun t => t.segments.any fun s => segTrimRoot s = r

/-- Location set `self.root_index[r]` (a Python set accumulated in corpus
order), embedded as the first-occurrence-deduplicated list of keys of the
verses containing a segment with trimmed root `r`. -/
def rootIndexLocs (c : Corpus) (r : String) : List (Nat × Nat) :=
  dedupFirst ((c.filter (fun v => verseHasRootB r v)).map verseKey)

/-- Embeds `_make_morph_pattern_key`. -/
def makeMorphPatternKey (s : Segment) : Option String :=
  let type_ := lowerS (s.type.getD "")
  let pos := lowerS (s.pos.getD "")
  let lemma_ := lowerS (s.lemma_.getD "")
  let features := lowerS (s.features.getD "")
  if type_ = "" && pos = "" && lemma_ = "" && features = "" then none
  else some (joinWith "|" [type_, pos, lemma_, features])

/-- Embeds `_format_morph_pattern_label`: the non-empty original-case
fields (type uppercased) joined by a bullet, defaulting to
"Morph Pattern". -/
def formatMorphPatternLabel (s : Segment) : String :=
  let parts :=
    (match s.type with | some t => if t = "" then [] else [upperS t] | none => []) ++
    (match s.pos with | some p => if p = "" then [] else [p] | none => []) ++
    (match s.lemma_ with | some l => if l = "" then [] else [l] | none => []) ++
    (match s.features with | some f => if f = "" then [] else [f] | none => [])
  let j := joinWith " • " parts
  if j = "" then "Morph Pattern" else j

/-- Embeds `_extract_pos_sequence`: per-token POS, from the first segment
when segments exist, else from the token POS, skipping tokens with no POS;
lowercased. -/
def extractPosSequence (tokens : List Token) : List String :=
  tokens.filterMap fun t =>
    let pos :=
      match t.segments with
      | s :: _ => s.pos.getD ""
      | [] => t.pos.getD ""
    if pos = "" then none else some (lowerS pos)

/-- Does the verse contribute morph key `key`? -/
def verseHasMorphKeyB (key : String) (v : Verse) : Bool :=
  v.tokens.any fun t => t.segments.any fun s => makeMorphPatternKey s = some key

/-- Verse-location set of a morphological pattern key
(`morph_meta[key]["verses"]`). -/
def morphVerses (c : Corpus) (key : String) : List (Nat × Nat) :=
  dedupFirst ((c.filter (fun v => verseHasMorphKeyB key v)).map verseKey)

/-- All (key, contributing segment) pairs in corpus traversal order. -/
def morphKeySegPairs (c : Corpus) : List (String × Segment) :=
  c.flatMap fun v => v.tokens.flatMap fun t =>
    t.segments.filterMap fun s => (makeMorphPatternKey s).map (fun k => (k, s))

/-- An `{id, label, count}` enumeration entry of a pattern index. -/
structure PatternEnt where
  id : String
  label : String
  count : Nat
deriving DecidableEq, Repr

/-- Label order used when enumerating pattern indexes:
`sorted(..., key=lambda item: item["label"])`. -/
def entLabelLe (a b : PatternEnt) : Prop := strLe a.label b.label = true

instance : DecidableRel entLabelLe := fun a b =>
  inferInstanceAs (Decidable (strLe a.label b.label = true))

/-- Unsorted morphological-pattern entries in dict insertion order: one
entry per distinct key, labelled from the first segment that produced the
key (`dict.setdefault` keeps the first label), counting distinct verse
locations. -/
def morphEntriesRaw (c : Corpus) : List PatternEnt :=
  (dedupKeyed (morphKeySegPairs c)).map fun p =>
    ⟨p.1, formatMorphPatternLabel p.2, (morphVerses c p.1).length⟩

/-- Embeds `self.morph_patterns`: the enumeration list sorted (stably) by
label. -/
def morphPatterns (c : Corpus) : List PatternEnt :=
  List.insertionSort entLabelLe (morphEntriesRaw c)

/-- The 2- and 3-gram (key, window) pairs a verse contributes to the
syntactic index, in source loop order: lengths 2 then 3, then start
positions. -/
def verseGrams (seq : List String) : List (String × List String) :=
  (if 2 ≤ seq.length then
    (List.range (seq.length - 2 + 1)).map fun st =>
      let w := (seq.drop st).take 2
      (joinWith "|" w, w)
   else []) ++
  (if 3 ≤ seq.length then
    (List.range (seq.length - 3 + 1)).map fun st =>
      let w := (seq.drop st).take 3
      (joinWith "|" w, w)
   else [])

/-- Does the verse contribute syntactic key `key`? -/
def verseHasGramB (key : String) (v : Verse) : Bool :=
  (verseGrams (extractPosSequence v.tokens)).any fun p => p.1 = key

/-- Verse-location set of a syntactic pattern key. -/
def synVerses (c : Corpus) (key : String) : List (Nat × Nat) :=
  dedupFirst ((c.filter (fun v => verseHasGramB key v)).map verseKey)

/-- Label of a syntactic key: POS codes joined by an arrow, uppercased. -/
def synLabelOf (w : List String) : String := joinWith " → " (w.map upperS)

/-- Unsorted syntactic-pattern entries in dict insertion order. -/
def synEntriesRaw (c : Corpus) : List PatternEnt :=
  (dedupKeyed (c.flatMap fun v => verseGrams (extractPosSequence v.tokens))).map
    fun p => ⟨p.1, synLabelOf p.2, (synVerses c p.1).length⟩

/-- Embeds `self.syntax_patterns`: the enumeration list sorted (stably) by
label. -/
def synPatterns (c : Corpus) : List PatternEnt :=
  List.insertionSort entLabelLe (synEntriesRaw c)

/-- Candidate groups of the verb-form regex alternation
`(I{1,3}V?|VI{0,3}|I?X)` in the order a backtracking engine tries them at
one position: first alternative with greedy `I{1,3}` (longest first) and
greedy `V?` (present first), then the second and third alternatives. -/
def vfCands : List (List Char) :=
  [['I','I','I','V'], ['I','I','I'], ['I','I','V'], ['I','I'], ['I','V'], ['I'],
   ['V','I','I','I'], ['V','I','I'], ['V','I'], ['V'],
   ['I','X'], ['X']]

/-- At one position just after a literal `(`, the group matched by the
verb-form pattern when the closing `)` also matches: the first candidate
in backtracking order that is followed by `)`. -/
def vfFindCand (rest : List Char) : Option String :=
  (vfCands.find? fun cand => listPrefixOfB (cand ++ [')']) rest).map
    fun cand => String.mk cand

/-- Embeds `re.search(r"\((I{1,3}V?|VI{0,3}|I?X)\)", features_str)` and the
extraction of group 1: leftmost position at which the whole pattern
matches, alternatives in backtracking order at that position. -/
def searchVFL : List Char → Option String
  | [] => none
  | c :: rest =>
    if c = '(' then
      match vfFindCand rest with
      | some g => some g
      | none => searchVFL rest
    else searchVFL rest

/-- Verb form attribute of `parse_morphological_features`: the
`roman_to_arabic` dict maps every key to itself and `.get(x, x)` is the
identity elsewhere, so the attribute is "Form " plus the matched group. -/
def verbFormOf (s : String) : Option String :=
  (searchVFL s.data).map fun g => "Form " ++ g

/-- Person attribute: explicit first-person codes, else the second-person
gender-number codes, else the third-person ones, checked on the raw
string. -/
def personOf (s : String) : Option String :=
  if strContains s "1P" || strContains s "1S" || strContains s "1D" then some "1st"
  else if strContains s "2P" || strContains s "2MS" || strContains s "2FS" ||
      strContains s "2MD" || strContains s "2FD" || strContains s "2MP" ||
      strContains s "2FP" then some "2nd"
  else if strContains s "3P" || strContains s "3MS" || strContains s "3FS" ||
      strContains s "3MD" || strContains s "3FD" || strContains s "3MP" ||
      strContains s "3FP" then some "3rd"
  else none

/-- Number attribute. -/
def numberOf (s : String) : Option String :=
  if strContains s "S|" || strEndsWith s "S" || strContains s "MS" ||
      strContains s "FS" then some "singular"
  else if strContains s "D|" || strEndsWith s "D" || strContains s "MD" ||
      strContains s "FD" then some "dual"
  else if strContains s "P|" || strEndsWith s "P" || strContains s "MP" ||
      strContains s "FP" then some "plural"
  else none

/-- Gender attribute. -/
def genderOf (s : String) : Option String :=
  if strContains s "|M|" || strContains s "|M" || strContains s "MS" ||
      strContains s "MD" || strContains s "MP" then some "masculine"
  else if strContains s "|F|" || strContains s "|F" || strContains s "FS" ||
      strContains s "FD" || strContains s "FP" then some "feminine"
  else none

/-- Voice attribute, on the uppercased string. -/
def voiceOf (s : String) : Option String :=
  let u := upperS s
  if strContains u "ACT" || strContains u "ACTIVE" then some "active"
  else if strContains u "PASS" || strContains u "PASSIVE" then some "passive"
  else none

/-- Mood attribute: explicit MOOD tags on the raw string with substring
fallbacks on the uppercased string. -/
def moodOf (s : String) : Option String :=
  let u := upperS s
  if strContains s "MOOD:IND" then some "indicative"
  else if strContains s "MOOD:SJ" || strContains u "SUBJ" then some "subjunctive"
  else if strContains s "MOOD:JUS" || strContains u "JUS" then some "jussive"
  else none

/-- Case attribute: NOM, then ACC, then GEN, first match wins, on the
uppercased string. -/
def caseOf (s : String) : Option String :=
  let u := upperS s
  if strContains u "NOM" then some "nominative"
  else if strContains u "ACC" then some "accusative"
  else if strContains u "GEN" then some "genitive"
  else none

/-- Tense attribute: PERF, then IMPF, then IMPV. -/
def tenseOf (s : String) : Option String :=
  let u := upperS s
  if strContains u "PERF" then some "perfect"
  else if strContains u "IMPF" then some "imperfect"
  else if strContains u "IMPV" then some "imperative"
  else none

/-- Aspect attribute: set together with tense for PERF and IMPF only. -/
def aspectOf (s : String) : Option String :=
  let u := upperS s
  if strContains u "PERF" then some "perfective"
  else if strContains u "IMPF" then some "imperfective"
  else none

/-- Embeds `_get_pos_full_name`: fixed code-to-display table, unknown
codes pass through. -/
def getPosFullName (pos : String) : String :=
  match pos with
  | "N" => "Noun"
  | "PN" => "Proper Noun"
  | "ADJ" => "Adjective"
  | "V" => "Verb"
  | "P" => "Preposition"
  | "PRON" => "Pronoun"
  | "DET" => "Determiner"
  | "REL" => "Relative Pronoun"
  | "T" => "Particle"
  | "NEG" => "Negative Particle"
  | "CONJ" => "Conjunction"
  | "INTERROG" => "Interrogative"
  | "VOC" => "Vocative Particle"
  | "SUB" => "Subordinating Conjunction"
  | "EMPH" => "Emphatic Particle"
  | "IMPV" => "Imperative Particle"
  | "ACC" => "Accusative Particle"
  | "AMD" => "Amendment Particle"
  | "ANS" => "Answer Particle"
  | "AVR" => "Aversion Particle"
  | "CAUS" => "Causative Particle"
  | "CERT" => "Certainty Particle"
  | "CIRC" => "Circumstantial Particle"
  | "COM" => "Comitative Particle"
  | "COND" => "Conditional Particle"
  | "EQ" => "Equalization Particle"
  | "EXH" => "Exhortation Particle"
  | "EXL" => "Explanation Particle"
  | "EXP" => "Exceptive Particle"
  | "FUT" => "Future Particle"
  | "INC" => "Inceptive Particle"
  | "INT" => "Intensification Particle"
  | "INTG" => "Interrogative Particle"
  | "PRO" => "Prohibition Particle"
  | "REM" => "Resumption Particle"
  | "RES" => "Restriction Particle"
  | "RET" => "Retraction Particle"
  | "RSLT" => "Result Particle"
  | "SUP" => "Supplemental Particle"
  | "SUR" => "Surprise Particle"
  | _ => pos

/-- Decoded attribute record produced by `parse_morphological_features`. -/
structure Parsed where
  pos : String
  pos_full : String
  root : Option String
  lemma_ : Option String
  type : Option String
  verb_form : Option String
  person : Option String
  number : Option String
  gender : Option String
  voice : Option String
  mood : Option String
  case : Option String
  tense : Option String
  aspect : Option String
  features_raw : String
deriving DecidableEq, Repr

/-- Embeds `parse_morphological_features`: identity fields always set, all
grammatical attributes left absent when the features string is empty, else
each attribute group decoded independently by the ordered substring rules
above. -/
def parseMorphologicalFeatures (seg : Segment) : Parsed :=
  let s := seg.features.getD ""
  let pos := seg.pos.getD ""
  let base : Parsed :=
    { pos := pos, pos_full := getPosFullName pos, root := seg.root,
      lemma_ := seg.lemma_, type := seg.type,
      verb_form := none, person := none, number := none, gender := none,
      voice := none, mood := none, case := none, tense := none,
      aspect := none, features_raw := s }
  if s = "" then base
  else
    { base with
      verb_form := verbFormOf s, person := personOf s, number := numberOf s,
      gender := genderOf s, voice := voiceOf s, mood := moodOf s,
      case := caseOf s, tense := tenseOf s, aspect := aspectOf s }

/-- Membership in the Arabic letter character class
`[ء-يٱ-ٳٵ]` of `_pattern_segments_to_regex`
(includes the extended hamza and alef forms). -/
def arabicLetterB (c : Char) : Bool :=
  let n := c.val.toNat
  (0x621 ≤ n && n ≤ 0x64A) || (0x671 ≤ n && n ≤ 0x673) || n = 0x675

/-- Membership in the diacritics class `[ً-ْٰٓ-ٕ]`. -/
def diacriticB (c : Char) : Bool :=
  let n := c.val.toNat
  (0x64B ≤ n && n ≤ 0x652) || n = 0x670 || (0x653 ≤ n && n ≤ 0x655)

/-- Membership in the elongation-mark unit `ـ` (tatweel). -/
def tatweelB (c : Char) : Bool := c.val.toNat = 0x640

/-- Letter-matching unit of one compiled slot: the Arabic letter class or
an escaped literal (a literal sequence of characters). -/
inductive LetterUnit where
  | anyLetter : LetterUnit
  | lit : List Char → LetterUnit
deriving DecidableEq, Repr

/-- One compiled slot: letter unit, then (unless `anyDiac`) the literal
specified diacritics, then a greedy run over the diacritics class, then a
greedy run of tatweel. -/
structure CompSlot where
  letter : LetterUnit
  anyDiac : Bool
  diac : List Char
deriving DecidableEq, Repr

/-- Compiled structural pattern: slot units concatenated, with a
no-prefix lookbehind and a no-suffix lookahead unless the corresponding
side allows attachment. -/
structure CompPattern where
  slots : List CompSlot
  allowPre : Bool
  allowSuf : Bool
deriving DecidableEq, Repr

/-- One letter slot of a structural pattern specification
(`pattern_spec["segments"][i]`), with optional dict keys. -/
structure PatternSlot where
  letter : Option String := none
  diacritics : Option (List String) := none
  any_letter : Option Bool := none
  any_diacritics : Option Bool := none
deriving DecidableEq, Repr

/-- A structural pattern specification (`pattern_spec`). -/
structure PatternSpec where
  segments : Option (List PatternSlot) := none
  allow_pre : Option Bool := none
  allow_suf : Option Bool := none
deriving DecidableEq, Repr

/-- Compilation of one slot, following `_pattern_segments_to_regex`: the
wildcard class is used when `any_letter` is truthy OR the letter is absent
or empty; `re.escape` of a literal matches exactly that literal; the
specified diacritics (empty entries dropped) keep a trailing greedy
diacritics-class run even when given. -/
def compSlotOf (s : PatternSlot) : CompSlot :=
  let letter := s.letter.getD ""
  let anyL := s.any_letter.getD false || letter = ""
  { letter := if anyL then .anyLetter else .lit letter.data
    anyDiac := s.any_diacritics.getD false
    diac := ((s.diacritics.getD []).filter (fun d => d ≠ "")).flatMap String.data }

/-- Embeds `_pattern_segments_to_regex` for well-typed slot values. The
final `try/except re.error` of the source can only catch an error raised
by the f-string interpolation, which never raises, so compilation always
returns a matcher here; the dynamic variant below models the untyped
failure mode. -/
def patternSegmentsToRegex (segs : List PatternSlot) (allowPre allowSuf : Bool) :
    Option CompPattern :=
  some { slots := segs.map compSlotOf, allowPre := allowPre, allowSuf := allowSuf }

/-- Consumption counts that a greedy star over the one-character class
`cls` can take on `l`, in backtracking preference order (longest first). -/
def starMatches (cls : Char → Bool) : List Char → List Nat
  | [] => [0]
  | c :: rest => if cls c then (starMatches cls rest).map (· + 1) ++ [0] else [0]

/-- Consumption counts of one slot on `l`, in backtracking preference
order: fixed letter unit and literal diacritics, then the diacritics-class
star (earlier star varies slower), then the tatweel star. -/
def slotMatches (s : CompSlot) (l : List Char) : List Nat :=
  let afterLetter : Option (Nat × List Char) :=
    match s.letter with
    | .anyLetter =>
      match l with
      | c :: rest => if arabicLetterB c then some (1, rest) else none
      | [] => none
    | .lit w => if listPrefixOfB w l then some (w.length, l.drop w.length) else none
  match afterLetter with
  | none => []
  | some (n1, rest1) =>
    let afterDiacLit : Option (Nat × List Char) :=
      if s.anyDiac then some (n1, rest1)
      else if listPrefixOfB s.diac rest1 then
        some (n1 + s.diac.length, rest1.drop s.diac.length)
      else none
    match afterDiacLit with
    | none => []
    | some (n2, rest2) =>
      (starMatches diacriticB rest2).flatMap fun d =>
        (starMatches tatweelB (rest2.drop d)).map fun t => n2 + d + t

/-- Consumption counts of a slot sequence, in backtracking preference
order (earlier slot varies slower). -/
def slotsMatches : List CompSlot → List Char → List Nat
  | [], _ => [0]
  | s :: rest, l =>
    (slotMatches s l).flatMap fun n =>
      (slotsMatches rest (l.drop n)).map fun m => n + m

/-- The lookahead `(?!\S)`: at offset `j` of `cs`, the end of the text or
a whitespace character. -/
def rightBoundOk (allowSuf : Bool) (cs : List Char) (j : Nat) : Bool :=
  allowSuf ||
    match cs.drop j with
    | [] => true
    | c :: _ => pySpaceB c

/-- The lookbehind `(?<!\S)`: at offset `i` of `cs`, the start of the text
or a preceding whitespace character. -/
def leftBoundOk (allowPre : Bool) (cs : List Char) (i : Nat) : Bool :=
  allowPre ||
    match i with
    | 0 => true
    | j + 1 =>
      match cs.drop j with
      | [] => true
      | c :: _ => pySpaceB c

/-- Attempted match of the compiled pattern at offset `i`: lookbehind
first, then the body in backtracking order, accepting the first
consumption for which the lookahead holds; returns the consumed length. -/
def tryAt (p : CompPattern) (cs : List Char) (i : Nat) : Option Nat :=
  if leftBoundOk p.allowPre cs i then
    (slotsMatches p.slots (cs.drop i)).find? fun n => rightBoundOk p.allowSuf cs (i + n)
  else none

/-- Fueled scan of `re.finditer`: leftmost matches, continuing after each
match (advancing at least one character, as Python does after an empty
match). Returns the (offset, length) pairs of the matches. -/
def finditerAux (p : CompPattern) (cs : List Char) : Nat → Nat → List (Nat × Nat)
  | 0, _ => []
  | fuel + 1, i =>
    if cs.length < i then []
    else
      match tryAt p cs i with
      | some n => (i, n) :: finditerAux p cs fuel (i + max n 1)
      | none => finditerAux p cs fuel (i + 1)

/-- Embeds `list(compiled.finditer(text))` for the compiled structural
pattern: every scan position advances, so `length + 1` fuel is exact. -/
def finditer (p : CompPattern) (cs : List Char) : List (Nat × Nat) :=
  finditerAux p cs (cs.length + 1) 0

/-- A dynamically-typed JSON value appearing in a slot field of an
incoming pattern specification (the API passes request JSON through
unchecked). -/
inductive PyVal where
  | pstr : String → PyVal
  | pint : Int → PyVal
deriving DecidableEq, Repr

/-- Python truthiness of such a value. -/
def PyVal.truthy : PyVal → Bool
  | .pstr s => s ≠ ""
  | .pint n => n ≠ 0

/-- Runtime error raised by the Python re module helpers. -/
inductive PyErr where
  | typeError : PyErr
deriving DecidableEq, Repr

/-- Embeds `re.escape`: a string is escaped (semantically the identity for
literal matching), any other value raises `TypeError`. -/
def reEscapeDyn : PyVal → Except PyErr String
  | .pstr s => .ok s
  | .pint _ => .error .typeError

/-- A slot whose field values come straight from request JSON. -/
structure DynSlot where
  letter : Option PyVal := none
  diacritics : Option (List PyVal) := none
  any_letter : Option Bool := none
  any_diacritics : Option Bool := none
deriving DecidableEq, Repr

/-- A structural pattern specification with untyped slot fields. -/
structure DynSpec where
  segments : Option (List DynSlot) := none
  allow_pre : Option Bool := none
  allow_suf : Option Bool := none
deriving DecidableEq, Repr

/-- Compilation of one untyped slot: as `compSlotOf`, but `re.escape` is
applied to the raw letter value and to each truthy diacritic value, so a
non-string field raises instead of degrading. -/
def compSlotOfDyn (s : DynSlot) : Except PyErr CompSlot := do
  let anyL := s.any_letter.getD false ||
    !(match s.letter with | some v => v.truthy | none => false)
  let letter ←
    if anyL then pure LetterUnit.anyLetter
    else
      match s.letter with
      | some v => do pure (LetterUnit.lit (← reEscapeDyn v).data)
      | none => pure LetterUnit.anyLetter
  let diacVals := (s.diacritics.getD []).filter PyVal.truthy
  let diacStrs ← diacVals.mapM reEscapeDyn
  pure { letter := letter, anyDiac := s.any_diacritics.getD false,
         diac := diacStrs.flatMap String.data }

/-- Embeds `_pattern_segments_to_regex` on untyped slots: the `TypeError`
raised by `re.escape` on a non-string field propagates, because the
`try/except re.error` in the source only wraps the final f-string. -/
def patternSegmentsToRegexDyn (segs : List DynSlot) (allowPre allowSuf : Bool) :
    Except PyErr (Option CompPattern) := do
  let slots ← segs.mapM compSlotOfDyn
  pure (some { slots := slots, allowPre := allowPre, allowSuf := allowSuf })

/-- One result entry of a query operation, a dict with the optional keys
the various operations use (the compiled pattern stands in for the
`match_regex` string of the source). -/
structure VerbMatch where
  token_form : Option String
  root : Option String
  lemma_ : Option String
  parsed : Parsed
deriving DecidableEq, Repr

structure Entry where
  index : Option Nat := none
  verse : Verse
  matchLabel : Option String := none
  match_term : Option String := none
  match_regex : Option CompPattern := none
  match_count : Option Nat := none
  matchesList : Option (List VerbMatch) := none
deriving DecidableEq, Repr

/-- The `{"results": ..., "total_count": ...}` record several operations
return. -/
structure QueryOut where
  results : List Entry
  total_count : Nat
deriving DecidableEq, Repr

/-- The two shapes a search method of the source can actually return: a
bare list (the early-return branches, and the operations that never
report a total), or the results/total record. -/
inductive PyResult where
  | bare : List Entry → PyResult
  | record : QueryOut → PyResult
deriving DecidableEq, Repr

/-- Number of results in either shape. -/
def PyResult.resultsLen : PyResult → Nat
  | .bare l => l.length
  | .record o => o.results.length

/-- Reported total count, when the shape carries one. -/
def PyResult.totalOf : PyResult → Option Nat
  | .bare _ => none
  | .record o => some o.total_count

/-- Shared accumulation loop of the scanning operations: per verse, a
`step` either yields nothing or yields an entry plus the weight added to
the running total; the entry is appended only while fewer than `limit`
results have been collected, the weight is always added. `i` is the
enumeration index. -/
def loopAux (limit : Nat) (step : Nat → Verse → Option (Entry × Nat)) :
    Nat → List Entry × Nat → List Verse → List Entry × Nat
  | _, acc, [] => acc
  | i, acc, v :: rest =>
    match step i v with
    | none => loopAux limit step (i + 1) acc rest
    | some (e, w) =>
      loopAux limit step (i + 1)
        (if acc.1.length < limit then acc.1 ++ [e] else acc.1, acc.2 + w) rest

/-- Loop of `search_text`: collect verses whose lowercased text contains
the lowercased query, stopping as soon as `limit` entries are collected. -/
def searchTextLoop (ql : String) (limit : Nat) :
    Nat → List Entry → List Verse → List Entry
  | _, acc, [] => acc
  | i, acc, v :: rest =>
    if strContains (lowerS v.text) ql then
      let acc' := acc ++ [{ index := some i, verse := v }]
      if limit ≤ acc'.length then acc' else searchTextLoop ql limit (i + 1) acc' rest
    else searchTextLoop ql limit (i + 1) acc rest

/-- Embeds `search_text`: a bare list of `index`/`verse` entries. -/
def searchText (c : Corpus) (query : String) (limit : Nat) : List Entry :=
  searchTextLoop (lowerS query) limit 0 [] c

/-- The `has_root` scan of `search_by_root`: some segment whose raw root
equals the query exactly. -/
def verseHasExactRootB (root : String) (v : Verse) : Bool :=
  v.tokens.any fun t => t.segments.any fun s => s.root = some root

/-- Loop of `search_by_root`, same early-stop shape as `search_text`. -/
def searchByRootLoop (root : String) (limit : Nat) :
    Nat → List Entry → List Verse → List Entry
  | _, acc, [] => acc
  | i, acc, v :: rest =>
    if v.tokens = [] then searchByRootLoop root limit (i + 1) acc rest
    else if verseHasExactRootB root v then
      let acc' := acc ++ [{ index := some i, verse := v }]
      if limit ≤ acc'.length then acc'
      else searchByRootLoop root limit (i + 1) acc' rest
    else searchByRootLoop root limit (i + 1) acc rest

/-- Embeds `search_by_root`: a bare list of `index`/`verse` entries. -/
def searchByRoot (c : Corpus) (root : String) (limit : Nat) : List Entry :=
  searchByRootLoop root limit 0 [] c

/-- The representative surface form `search_root` attaches: the loop keeps
overwriting `match_form` with the form of each token containing a segment
whose RAW root equals the (stripped) query, breaking at the first truthy
form, so the attached term is the first non-empty form of such a token. -/
def findMatchForm (v : Verse) (root : String) : Option String :=
  (v.tokens.filterMap fun t =>
    if t.segments.any (fun s => s.root = some root) then
      match t.form with
      | some f => if f = "" then none else some f
      | none => none
    else none).head?

/-- Embeds `search_root`: empty or unindexed (stripped) root returns a
bare empty list; otherwise locations are sorted ascending, truncated to
`limit`, resolved through `verse_lookup`, and the total is the full
(untruncated) number of locations. -/
def searchRoot (c : Corpus) (root : String) (limit : Nat) : PyResult :=
  let r := pyStrip root
  if r = "" then .bare []
  else
    let locs := rootIndexLocs c r
    if locs = [] then .bare []
    else
      let refs := List.insertionSort (fun a b => pairLe a b = true) locs
      let results := (refs.take limit).filterMap fun k =>
        (verseLookup c k).map fun v =>
          { verse := v, matchLabel := some ("Root: " ++ r),
            match_term := findMatchForm v r : Entry }
      .record { results := results, total_count := refs.length }

/-- Embeds `_build_search_results`: resolve sorted references through
`verse_lookup`, attaching the label when it is non-empty. -/
def buildSearchResults (c : Corpus) (references : List (Nat × Nat))
    (matchLabel : String) (limit : Nat) : List Entry :=
  (references.take limit).filterMap fun k =>
    (verseLookup c k).map fun v =>
      if matchLabel = "" then { verse := v : Entry }
      else { verse := v, matchLabel := some matchLabel : Entry }

/-- First segment (in corpus traversal order) producing a morph key, which
fixes the label `dict.setdefault` stored for that key. -/
def morphFirstSeg (c : Corpus) (key : String) : Option Segment :=
  ((morphKeySegPairs c).filter fun p => p.1 = key).head?.map Prod.snd

/-- Embeds `search_morph_pattern`: a bare list in both branches; an empty
or unknown key yields the empty list. -/
def searchMorphPattern (c : Corpus) (patternId : String) (limit : Nat) :
    List Entry :=
  if patternId = "" then []
  else
    match morphFirstSeg c patternId with
    | none => []
    | some seg =>
      let references :=
        List.insertionSort (fun a b => pairLe a b = true) (morphVerses c patternId)
      buildSearchResults c references (formatMorphPatternLabel seg) limit

/-- Query tokenization of `search_syntax`: split on runs of whitespace,
comma, `>`, `+`, `-`; strip and lowercase the pieces; drop empties. -/
def isSepChar (c : Char) : Bool :=
  pySpaceB c || c = ',' || c = '>' || c = '+' || c = '-'

def splitQueryTokens (q : String) : List String :=
  (wordsBy isSepChar q.data).filterMap fun w =>
    let t := pyStripL w
    if t = [] then none else some (lowerS (String.mk t))

/-- The per-verse POS sequence `search_syntax` actually builds: one entry
per token, the lowercased POS of the FIRST segment when the token has
segments and the empty string otherwise (the token-level POS field is
never consulted here, unlike `_extract_pos_sequence`). -/
def synSeqOf (tokens : List Token) : List String :=
  tokens.map fun t =>
    lowerS (match t.segments with | s :: _ => s.pos.getD "" | [] => "")

/-- First window start at which `pat` occurs contiguously in `seq`
(the `for start in range(...)` scan with its first-match `break`). -/
def winStart (pat : List String) : List String → Option Nat
  | [] => if pat = [] then some 0 else none
  | s :: t =>
    if (s :: t).length < pat.length then none
    else if (s :: t).take pat.length = pat then some 0
    else (winStart pat t).map (· + 1)

/-- Per-verse step of `search_syntax`: verses without tokens are skipped;
a window hit contributes one matching verse to the total and one entry
carrying the uppercased window as label and the non-empty token forms of
the window as term. -/
def synStep (pat : List String) (i : Nat) (v : Verse) : Option (Entry × Nat) :=
  if v.tokens = [] then none
  else
    match winStart pat (synSeqOf v.tokens) with
    | none => none
    | some st =>
      let window := ((synSeqOf v.tokens).drop st).take pat.length
      let forms := ((v.tokens.drop st).take pat.length).filterMap fun t =>
        match t.form with
        | some f => if f = "" then none else some f
        | none => none
      some
        ({ index := some i, verse := v,
           matchLabel := some ("POS pattern: " ++ joinWith " " (window.map upperS)),
           match_term := if forms = [] then none else some (joinWith " " forms) },
         1)

/-- Embeds `search_syntax` (the searchSyntaxFreeText operation): an empty
token list returns a bare empty list, otherwise the record produced by the
shared accumulation loop. -/
def searchSyntaxFreeText (c : Corpus) (pattern : String) (limit : Nat) : PyResult :=
  let toks := splitQueryTokens pattern
  if toks = [] then .bare []
  else
    let acc := loopAux limit (synStep toks) 0 ([], 0) c
    .record { results := acc.1, total_count := acc.2 }

/-- Per-verse step of `search_pattern_word`: a verse with matches
contributes all of them to the total and one entry with the match count. -/
def patternStep (pat : CompPattern) (_i : Nat) (v : Verse) : Option (Entry × Nat) :=
  let ms := finditer pat v.text.data
  if ms = [] then none
  else
    some
      ({ verse := v, matchLabel := some "Pattern match", match_regex := some pat,
         match_count := some ms.length }, ms.length)

/-- Embeds `search_pattern_word`: missing or empty segments give a bare
empty list, a failed compilation gives a bare empty list, otherwise the
record produced by the shared accumulation loop. -/
def searchPatternWord (c : Corpus) (spec : PatternSpec) (limit : Nat) : PyResult :=
  match spec.segments with
  | none => .bare []
  | some [] => .bare []
  | some segs =>
    match patternSegmentsToRegex segs (spec.allow_pre.getD false)
        (spec.allow_suf.getD false) with
    | none => .bare []
    | some pat =>
      let acc := loopAux limit (patternStep pat) 0 ([], 0) c
      .record { results := acc.1, total_count := acc.2 }

/-- Embeds the `search_pattern_word` route on an untyped specification:
the compile error of a non-string slot field escapes to the caller. -/
def searchPatternWordDyn (c : Corpus) (spec : DynSpec) (limit : Nat) :
    Except PyErr PyResult :=
  match spec.segments with
  | none => .ok (.bare [])
  | some [] => .ok (.bare [])
  | some segs => do
    match ← patternSegmentsToRegexDyn segs (spec.allow_pre.getD false)
        (spec.allow_suf.getD false) with
    | none => pure (.bare [])
    | some pat =>
      let acc := loopAux limit (patternStep pat) 0 ([], 0) c
      pure (.record { results := acc.1, total_count := acc.2 })

/-- The optional filters of the verb-form search route (absent or empty
request parameters are `none`). -/
structure VFFilters where
  form : Option String := none
  person : Option String := none
  number : Option String := none
  gender : Option String := none
  voice : Option String := none
  tense : Option String := none
deriving DecidableEq, Repr

/-- Does a decoded segment pass every supplied filter? -/
def vfFilterOk (f : VFFilters) (p : Parsed) : Bool :=
  (match f.form with | some fv => p.verb_form = some ("Form " ++ fv) | none => true) &&
  (match f.person with | some fv => p.person = some fv | none => true) &&
  (match f.number with | some fv => p.number = some fv | none => true) &&
  (match f.gender with | some fv => p.gender = some fv | none => true) &&
  (match f.voice with | some fv => p.voice = some fv | none => true) &&
  (match f.tense with | some fv => p.tense = some fv | none => true)

/-- The matching verb segments of one verse, in token order: only
segments with `pos == "V"` are decoded and filtered. -/
def vfMatches (f : VFFilters) (v : Verse) : List VerbMatch :=
  v.tokens.flatMap fun t =>
    t.segments.filterMap fun s =>
      if s.pos ≠ some "V" then none
      else
        let parsed := parseMorphologicalFeatures s
        if vfFilterOk f parsed then
          some { token_form := t.form, root := parsed.root,
                 lemma_ := parsed.lemma_, parsed := parsed }
        else none

/-- The human-readable description the verb-form route builds from the
supplied filters. -/
def vfMatchDesc (f : VFFilters) : String :=
  let parts :=
    (match f.form with | some fv => ["Form " ++ fv] | none => []) ++
    (match f.person with | some fv => [fv ++ " person"] | none => []) ++
    (match f.number with | some fv => [fv] | none => []) ++
    (match f.gender with | some fv => [fv] | none => []) ++
    (match f.voice with | some fv => [fv] | none => []) ++
    (match f.tense with | some fv => [fv] | none => [])
  if parts = [] then "Verb" else joinWith ", " parts

/-- Per-verse step of the verb-form search: verses without tokens are
skipped; a verse with matching segments contributes all of them to the
total and one entry keeping at most three example matches. -/
def vfStep (f : VFFilters) (_i : Nat) (v : Verse) : Option (Entry × Nat) :=
  if v.tokens = [] then none
  else
    let vm := vfMatches f v
    if vm = [] then none
    else
      some
        ({ verse := v, matchLabel := some (vfMatchDesc f),
           matchesList := some (vm.take 3), match_count := some vm.length },
         vm.length)

/-- Embeds the `/api/search/verb_forms` route body: always returns the
results/total record. -/
def searchVerbForms (c : Corpus) (f : VFFilters) (limit : Nat) : QueryOut :=
  let acc := loopAux limit (vfStep f) 0 ([], 0) c
  { results := acc.1, total_count := acc.2 }

/-- Is the returned shape the results/total record? -/
def PyResult.isRecord : PyResult → Bool
  | .bare _ => false
  | .record _ => true

/-- The result entries carried by either shape. -/
def PyResult.resultsOf : PyResult → List Entry
  | .bare l => l
  | .record o => o.results

/-- Number of verses whose text the compiled structural pattern matches. -/
def patMatchCount (c : Corpus) (pat : CompPattern) : Nat :=
  (c.filter fun v => !(finditer pat v.text.data).isEmpty).length

/-- Number of verses containing at least one verb segment passing the
filters. -/
def vfMatchCount (c : Corpus) (f : VFFilters) : Nat :=
  (c.filter fun v => !(vfMatches f v).isEmpty).length

/-- Number of verses of the suffix (starting at enumeration index `i`) on
which the step fires. -/
def stepHits (step : Nat → Verse → Option (Entry × Nat)) : Nat → List Verse → Nat
  | _, [] => 0
  | i, v :: rest => (if (step i v).isSome then 1 else 0) + stepHits step (i + 1) rest

/-- Total weight the loop accumulates over the suffix. -/
def stepWeight (step : Nat → Verse → Option (Entry × Nat)) : Nat → List Verse → Nat
  | _, [] => 0
  | i, v :: rest =>
    (match step i v with | some (_, w) => w | none => 0) + stepWeight step (i + 1) rest

/-- Concrete corpus for the root-index round trip: one verse whose only
segment stores the root with a trailing space. -/
def c1verse : Verse :=
  { surah := 1, ayah := 1, text := "x",
    tokens := [{ form := some "f", segments := [{ root := some "ر " }] }] }

def c1corpus : Corpus := [c1verse]

/-- Concrete input for the count claims: one verse whose text holds two
Arabic letters, searched with a single wildcard-letter slot. -/
def c2verse : Verse := { surah := 1, ayah := 1, text := "ب ت" }

def c2corpus : Corpus := [c2verse]

def c2spec : PatternSpec :=
  { segments := some [{ any_letter := some true }],
    allow_pre := some true, allow_suf := some true }

/-- Concrete corpus for the result-shape claims. -/
def c3corpus : Corpus := [{ surah := 1, ayah := 1, text := "ab" }]

/-- The malformed structural specification: a slot whose letter field is
an integer rather than a string. -/
def c4spec : DynSpec := { segments := some [{ letter := some (PyVal.pint 5) }] }

/-- Concrete corpus for the POS-window claim: the first token carries a
preposition segment, the second token has NO segments but a token-level
proper-noun POS, so the sequence of section 4.2 is ["p", "pn"] while the
sequence the search uses is ["p", ""]. -/
def c5verse : Verse :=
  { surah := 1, ayah := 1,
    tokens := [{ segments := [{ pos := some "p" }] }, { pos := some "pn" }] }

def c5corpus : Corpus := [c5verse]

/-- Scenario corpus in which both adjacent tokens carry first segments
with POS codes P and PN. -/
def c5wVerse : Verse :=
  { surah := 1, ayah := 1,
    tokens := [{ form := some "A", segments := [{ pos := some "P" }] },
               { form := some "B", segments := [{ pos := some "PN" }] }] }

def c5wCorpus : Corpus := [c5wVerse]

/-- Compiled whole-word pattern (one literal letter slot, prefix and
suffix attachment both disallowed) used to exercise the boundary claim. -/
def c6pat : CompPattern :=
  { slots := [compSlotOf { letter := some "ب" }], allowPre := false, allowSuf := false }

/-- Concrete corpus for the enumeration-order claim: two segments whose
distinct keys produce the same label "B". -/
def c9verse : Verse :=
  { surah := 1, ayah := 1,
    tokens := [{ segments := [{ pos := some "B" }] },
               { segments := [{ type := some "b" }] }] }

def c9corpus : Corpus := [c9verse]

/-- Concrete corpus with one verb segment, for the verb-form count
witness. -/
def vfwVerse : Verse :=
  { surah := 1, ayah := 1,
    tokens := [{ form := some "w",
                 segments := [{ pos := some "V", features := some "3MS|ACT|PERF" }] }] }

def vfwCorpus : Corpus := [vfwVerse]

/-- Scenario corpus of section 8: a single segment with root "رحم" (no
surrounding whitespace) attached to verse (1,3). -/
def c1wVerse : Verse :=
  { surah := 1, ayah := 3, text := "x",
    tokens := [{ form := some "y", segments := [{ root := some "رحم" }] }] }

def c1wCorpus : Corpus := [c1wVerse]

/-! Helper lemmas about the feature decoder. -/

theorem parseCase_eq (seg : Segment) :
    (parseMorphologicalFeatures seg).case = caseOf (seg.features.getD "") := by
  by_cases h : seg.features.getD "" = ""
  · simp only [parseMorphologicalFeatures, h, if_pos]
    decide
  · simp only [parseMorphologicalFeatures, h, if_neg, not_false_iff]

theorem parseVoice_eq (seg : Segment) :
    (parseMorphologicalFeatures seg).voice = voiceOf (seg.features.getD "") := by
  by_cases h : seg.features.getD "" = ""
  · simp only [parseMorphologicalFeatures, h, if_pos]
    decide
  · simp only [parseMorphologicalFeatures, h, if_neg, not_false_iff]

theorem parseVerbForm_eq (seg : Segment) :
    (parseMorphologicalFeatures seg).verb_form = verbFormOf (seg.features.getD "") := by
  by_cases h : seg.features.getD "" = ""
  · simp only [parseMorphologicalFeatures, h, if_pos]
    decide
  · simp only [parseMorphologicalFeatures, h, if_neg, not_false_iff]

theorem listPrefixOfB_map {α β : Type} [DecidableEq α] [DecidableEq β] (f : α → β)
    {n h : List α} (hp : listPrefixOfB n h = true) :
    listPrefixOfB (n.map f) (h.map f) = true := by
  induction n generalizing h with
  | nil => simp [listPrefixOfB]
  | cons a as ih =>
    cases h with
    | nil => simp [listPrefixOfB] at hp
    | cons b bs =>
      simp only [listPrefixOfB, Bool.and_eq_true, decide_eq_true_eq] at hp ⊢
      exact ⟨by rw [hp.1], ih hp.2⟩

theorem listInfixOf_map {α β : Type} [DecidableEq α] [DecidableEq β] (f : α → β)
    {n h : List α} (hp : listInfixOf n h = true) :
    listInfixOf (n.map f) (h.map f) = true := by
  induction h with
  | nil =>
    cases n with
    | nil => simp [listInfixOf, listPrefixOfB]
    | cons a as => simp [listInfixOf, listPrefixOfB] at hp
  | cons b bs ih =>
    simp only [listInfixOf, Bool.or_eq_true] at hp
    rcases hp with hp | hp
    · have := listPrefixOfB_map f hp
      simp only [List.map, listInfixOf, Bool.or_eq_true]
      exact Or.inl this
    · simp only [List.map, listInfixOf, Bool.or_eq_true]
      exact Or.inr (ih hp)

/-- Uppercasing preserves an ASCII-uppercase substring. -/
theorem strContains_upper {s t : String} (h : strContains s t = true)
    (ht : t.data.map Char.toUpper = t.data) : strContains (upperS s) t = true := by
  unfold strContains at h ⊢
  show listInfixOf t.data (s.data.map Char.toUpper) = true
  rw [← ht]
  exact listInfixOf_map Char.toUpper h

/-- C8: case decoding is first-match-wins in NOM then ACC then GEN priority
order on the uppercased features string: NOM anywhere gives nominative even
when ACC or GEN also occur; ACC without NOM gives accusative; GEN without
NOM or ACC gives genitive; otherwise case is absent. -/
theorem c8_case_priority (seg : Segment) :
    (strContains (upperS (seg.features.getD "")) "NOM" = true →
      (parseMorphologicalFeatures seg).case = some "nominative") ∧
    (strContains (upperS (seg.features.getD "")) "NOM" = false →
      strContains (upperS (seg.features.getD "")) "ACC" = true →
      (parseMorphologicalFeatures seg).case = some "accusative") ∧
    (strContains (upperS (seg.features.getD "")) "NOM" = false →
      strContains (upperS (seg.features.getD "")) "ACC" = false →
      strContains (upperS (seg.features.getD "")) "GEN" = true →
      (parseMorphologicalFeatures seg).case = some "genitive") ∧
    (strContains (upperS (seg.features.getD "")) "NOM" = false →
      strContains (upperS (seg.features.getD "")) "ACC" = false →
      strContains (upperS (seg.features.getD "")) "GEN" = false →
      (parseMorphologicalFeatures seg).case = none) := by
  rw [parseCase_eq]
  refine ⟨fun h1 => ?_, fun h1 h2 => ?_, fun h1 h2 h3 => ?_, fun h1 h2 h3 => ?_⟩ <;>
    simp +zetaDelta only [caseOf] <;> simp [h1]
  · simp [h2]
  · simp [h2, h3]
  · simp [h2, h3]

theorem c8_case_priority_witness :
    (parseMorphologicalFeatures { features := some "NOM|ACC" }).case =
      some "nominative" :=
  (c8_case_priority { features := some "NOM|ACC" }).1 (by decide)

/-- C10: in the pattern compiler, a slot whose letter field is absent or
empty is compiled to the wildcard Arabic-letter class regardless of the
any-letter flag; the literal branch is taken only for a supplied non-empty
letter; the wildcard class includes the extended alef form U+0671. -/
theorem c10_empty_letter_is_wildcard :
    (∀ s : PatternSlot, s.letter.getD "" = "" →
      (compSlotOf s).letter = LetterUnit.anyLetter) ∧
    (∀ (s : PatternSlot) (w : List Char), (compSlotOf s).letter = LetterUnit.lit w →
      s.any_letter.getD false = false ∧ s.letter = some (String.mk w) ∧ w ≠ []) ∧
    arabicLetterB 'ٱ' = true := by
  refine ⟨fun s h => ?_, fun s w h => ?_, by decide⟩
  · simp [compSlotOf, h]
  · by_cases hflag : s.any_letter.getD false = true
    · simp [compSlotOf, hflag] at h
    · by_cases hemp : s.letter.getD "" = ""
      · simp [compSlotOf, hemp] at h
      · have hflag' : s.any_letter.getD false = false := by simpa using hflag
        rcases hl : s.letter with _ | l
        · rw [hl] at hemp; simp at hemp
        · simp only [hl, Option.getD_some] at hemp
          simp [compSlotOf, hflag', hemp, hl] at h
          subst h
          refine ⟨hflag', ?_, ?_⟩
          · rfl
          · intro hw
            apply hemp
            cases l with
            | mk d =>
              simp only at hw
              cases hw
              rfl

theorem c10_empty_letter_is_wildcard_witness :
    (compSlotOf { any_letter := some false }).letter = LetterUnit.anyLetter :=
  c10_empty_letter_is_wildcard.1 { any_letter := some false } rfl

theorem searchVFL_append_no_paren {p rest : List Char} (hp : p.contains '(' = false) :
    searchVFL (p ++ rest) = searchVFL rest := by
  induction p with
  | nil => rfl
  | cons c cs ih =>
    simp only [List.contains_cons, Bool.or_eq_false_iff, beq_eq_false_iff_ne,
      ne_eq] at hp
    have hc : ¬ c = '(' := fun h => hp.1 h.symm
    simp only [List.cons_append, searchVFL, if_neg hc]
    exact ih hp.2

theorem searchVFL_at_IV (r : List Char) :
    searchVFL ('(' :: 'I' :: 'V' :: ')' :: r) = some "IV" := by
  simp [searchVFL, vfFindCand, vfCands, List.find?, listPrefixOfB]

/-- C7 counterexample: the feature string "(I)(IV)" contains the substring
"(IV)", yet the decoder extracts the leftmost parenthesized numeral and
yields Form I, not Form IV. -/
theorem c7_counterexample :
    strContains "(I)(IV)" "(IV)" = true ∧
    (parseMorphologicalFeatures { features := some "(I)(IV)" }).verb_form =
      some "Form I" ∧
    (parseMorphologicalFeatures { features := some "(I)(IV)" }).verb_form ≠
      some "Form IV" := by
  decide

/-- C7 amended: when "(IV)" is the LEFTMOST parenthesized numeral (no
opening parenthesis precedes it), decoding yields Form IV; and a feature
string containing "ACT" and no passive marker decodes to active voice. -/
theorem c7_form_and_voice :
    (∀ (seg : Segment) (s : String) (p r : List Char),
        seg.features = some s → s.data = p ++ ('(' :: 'I' :: 'V' :: ')' :: r) →
        p.contains '(' = false →
        (parseMorphologicalFeatures seg).verb_form = some "Form IV") ∧
    (∀ (seg : Segment) (s : String),
        seg.features = some s → strContains s "ACT" = true →
        strContains (upperS s) "PASS" = false →
        (parseMorphologicalFeatures seg).voice = some "active") := by
  constructor
  · intro seg s p r hf hs hp
    rw [parseVerbForm_eq, hf]
    show verbFormOf s = some "Form IV"
    unfold verbFormOf
    rw [show s.data = p ++ ('(' :: 'I' :: 'V' :: ')' :: r) from hs,
      searchVFL_append_no_paren hp, searchVFL_at_IV]
    rfl
  · intro seg s hf hact _hpass
    rw [parseVoice_eq, hf]
    show voiceOf s = some "active"
    have h2 : strContains (upperS s) "ACT" = true := strContains_upper hact (by decide)
    simp +zetaDelta only [voiceOf]
    simp [h2]

theorem c7_form_and_voice_witness :
    (parseMorphologicalFeatures { features := some "X|(IV)|PERF" }).verb_form =
      some "Form IV" ∧
    (parseMorphologicalFeatures { features := some "3MS|ACT" }).voice =
      some "active" :=
  ⟨c7_form_and_voice.1 { features := some "X|(IV)|PERF" } "X|(IV)|PERF"
      ['X', '|'] ['|', 'P', 'E', 'R', 'F'] rfl rfl (by decide),
   c7_form_and_voice.2 { features := some "3MS|ACT" } "3MS|ACT" rfl
      (by decide) (by decide)⟩

theorem charListLe_trans {a b c : List Char} (hab : charListLe a b = true)
    (hbc : charListLe b c = true) : charListLe a c = true := by
  induction a generalizing b c with
  | nil => rfl
  | cons x xs ih =>
    cases b with
    | nil => simp [charListLe] at hab
    | cons y ys =>
      cases c with
      | nil => simp [charListLe] at hbc
      | cons z zs =>
        simp only [charListLe] at hab hbc ⊢
        split_ifs at hab hbc ⊢ <;> try rfl
        all_goals try omega
        all_goals exact ih hab hbc

theorem charListLe_total (a b : List Char) :
    charListLe a b = true ∨ charListLe b a = true := by
  induction a generalizing b with
  | nil => left; rfl
  | cons x xs ih =>
    cases b with
    | nil => right; rfl
    | cons y ys =>
      rcases Nat.lt_trichotomy x.val.toNat y.val.toNat with h | h | h
      · left
        simp [charListLe, h]
      · have h2 : ¬ x.val.toNat < y.val.toNat := by omega
        have h3 : ¬ y.val.toNat < x.val.toNat := by omega
        have := ih ys
        rcases this with hx | hx
        · left
          simp [charListLe, h2, h3, hx]
        · right
          simp [charListLe, h2, h3, hx]
      · right
        simp [charListLe, h]

instance : IsTrans PatternEnt entLabelLe :=
  ⟨fun _ _ _ hab hbc => charListLe_trans hab hbc⟩

instance : IsTotal PatternEnt entLabelLe :=
  ⟨fun a b => charListLe_total a.label.data b.label.data⟩

/-- C9 amended: the morphological-pattern and syntactic-pattern
enumeration lists are sorted by label ascending; entries with equal labels
keep their first-insertion (corpus traversal) order, because the sort is
stable and compares labels only — ties are NOT reordered by key. -/
theorem c9_sorted_by_label (c : Corpus) :
    List.Sorted entLabelLe (morphPatterns c) ∧
    List.Sorted entLabelLe (synPatterns c) :=
  ⟨List.sorted_insertionSort entLabelLe (morphEntriesRaw c),
   List.sorted_insertionSort entLabelLe (synEntriesRaw c)⟩

/-- C9 counterexample: two segments produce distinct keys "|b||" and
"b|||" with the same label "B"; the enumeration keeps insertion order
("|b||" first) although key order would put "b|||" first, so equal labels
are NOT ordered by key. -/
theorem c9_counterexample :
    morphPatterns c9corpus =
      [{ id := "|b||", label := "B", count := 1 },
       { id := "b|||", label := "B", count := 1 }] ∧
    strLe "b|||" "|b||" = true ∧ ("b|||" : String) ≠ "|b||" := by
  decide

/-- C4: evaluation of the failure policy. A structural specification whose
slot letter is a non-string raises TypeError from re.escape — the
`try/except re.error` of `_pattern_segments_to_regex` wraps only the final
f-string, so nothing catches it and `search_pattern_word` does NOT degrade
to an empty result. The not-found half of the claim does hold: an
unindexed root is an empty success result. -/
theorem c4_nonstring_slot_raises :
    (∀ (c : Corpus) (limit : Nat),
      searchPatternWordDyn c c4spec limit = Except.error PyErr.typeError) ∧
    (∀ (c : Corpus) (root : String) (limit : Nat),
      rootIndexLocs c (pyStrip root) = [] →
      searchRoot c root limit = PyResult.bare []) := by
  constructor
  · intro c limit
    rfl
  · intro c root limit h
    unfold searchRoot
    by_cases he : pyStrip root = ""
    · simp [he]
    · simp [he, h]

theorem c4_nonstring_slot_raises_witness :
    searchPatternWordDyn [] c4spec 3 = Except.error PyErr.typeError ∧
    searchRoot [] "zzz" 3 = PyResult.bare [] :=
  ⟨c4_nonstring_slot_raises.1 [] 3,
   c4_nonstring_slot_raises.2 [] "zzz" 3 rfl⟩

theorem finditerAux_mem {p : CompPattern} {cs : List Char} :
    ∀ {fuel i : Nat} {m : Nat × Nat}, m ∈ finditerAux p cs fuel i →
      tryAt p cs m.1 = some m.2 := by
  intro fuel
  induction fuel with
  | zero =>
    intro i m h
    simp [finditerAux] at h
  | succ f ih =>
    intro i m h
    by_cases hlen : cs.length < i
    · simp [finditerAux, hlen] at h
    · rcases htry : tryAt p cs i with _ | n
      · rw [show finditerAux p cs (f + 1) i = finditerAux p cs f (i + 1) by
          simp [finditerAux, hlen, htry]] at h
        exact ih h
      · rw [show finditerAux p cs (f + 1) i =
            (i, n) :: finditerAux p cs f (i + max n 1) by
          simp [finditerAux, hlen, htry]] at h
        rcases List.mem_cons.mp h with hm | hm
        · rw [hm]
          exact htry
        · exact ih hm

theorem tryAt_bounds {p : CompPattern} {cs : List Char} {i n : Nat}
    (h : tryAt p cs i = some n) :
    leftBoundOk p.allowPre cs i = true ∧ rightBoundOk p.allowSuf cs (i + n) = true := by
  unfold tryAt at h
  by_cases hb : leftBoundOk p.allowPre cs i = true
  · refine ⟨hb, ?_⟩
    rw [if_pos hb] at h
    have h2 := List.find?_some h
    simpa using h2
  · rw [if_neg hb] at h
    exact absurd h (by simp)

/-- C6: with prefix and suffix attachment both disallowed, every match the
structural matcher returns is a whole word: whenever a character
immediately precedes the matched span it is whitespace, and whenever a
character immediately follows it it is whitespace, so no match is a strict
sub-string of a longer word. -/
theorem c6_whole_word (p : CompPattern) (cs : List Char)
    (hpre : p.allowPre = false) (hsuf : p.allowSuf = false) :
    ∀ i n : Nat, (i, n) ∈ finditer p cs →
      (∀ ch : Char, 1 ≤ i → (cs.drop (i - 1)).head? = some ch → pySpaceB ch = true) ∧
      (∀ ch : Char, (cs.drop (i + n)).head? = some ch → pySpaceB ch = true) := by
  intro i n hm
  have htry : tryAt p cs i = some n := finditerAux_mem hm
  obtain ⟨hleft, hright⟩ := tryAt_bounds htry
  rw [hpre] at hleft
  rw [hsuf] at hright
  constructor
  · intro ch hi hch
    unfold leftBoundOk at hleft
    rcases i with _ | j
    · omega
    · simp only [Bool.false_or] at hleft
      simp only [Nat.add_sub_cancel] at hch
      rcases hd : cs.drop j with _ | ⟨c, rest⟩
      · rw [hd] at hch
        simp at hch
      · rw [hd] at hleft hch
        simp only [List.head?] at hch
        injection hch with hch
        rw [← hch]
        exact hleft
  · intro ch hch
    unfold rightBoundOk at hright
    simp only [Bool.false_or] at hright
    rcases hd : cs.drop (i + n) with _ | ⟨c, rest⟩
    · rw [hd] at hch
      simp at hch
    · rw [hd] at hright hch
      simp only [List.head?] at hch
      injection hch with hch
      rw [← hch]
      exact hright

theorem c6_whole_word_witness : pySpaceB ' ' = true :=
  (c6_whole_word c6pat "ب ت".data rfl rfl 0 1 (by decide)).2 ' ' (by decide)

theorem loopAux_total (limit : Nat) (step : Nat → Verse → Option (Entry × Nat)) :
    ∀ (vs : List Verse) (i : Nat) (acc : List Entry × Nat),
      (loopAux limit step i acc vs).2 = acc.2 + stepWeight step i vs := by
  intro vs
  induction vs with
  | nil => intro i acc; simp [loopAux, stepWeight]
  | cons v rest ih =>
    intro i acc
    rcases hs : step i v with _ | ⟨e, w⟩
    · simp [loopAux, hs, stepWeight, ih]
    · simp only [loopAux, hs, stepWeight, ih]
      omega

theorem loopAux_len (limit : Nat) (step : Nat → Verse → Option (Entry × Nat)) :
    ∀ (vs : List Verse) (i : Nat) (acc : List Entry × Nat),
      acc.1.length ≤ limit →
      (loopAux limit step i acc vs).1.length =
        min limit (acc.1.length + stepHits step i vs) := by
  intro vs
  induction vs with
  | nil =>
    intro i acc h
    simp only [loopAux, stepHits]
    omega
  | cons v rest ih =>
    intro i acc h
    rcases hs : step i v with _ | ⟨e, w⟩
    · rw [show loopAux limit step i acc (v :: rest) =
          loopAux limit step (i + 1) acc rest by simp [loopAux, hs]]
      rw [ih (i + 1) acc h]
      simp [stepHits, hs]
    · rw [show loopAux limit step i acc (v :: rest) =
          loopAux limit step (i + 1)
            (if acc.1.length < limit then acc.1 ++ [e] else acc.1, acc.2 + w) rest by
        simp [loopAux, hs]]
      by_cases hlt : acc.1.length < limit
      · have hkeep : (if acc.1.length < limit then acc.1 ++ [e] else acc.1) =
            acc.1 ++ [e] := if_pos hlt
        rw [hkeep, ih (i + 1) (acc.1 ++ [e], acc.2 + w) (by simp; omega)]
        simp only [List.length_append, List.length_cons, List.length_nil,
          stepHits, hs, Option.isSome_some, if_true]
        omega
      · have hkeep : (if acc.1.length < limit then acc.1 ++ [e] else acc.1) =
            acc.1 := if_neg hlt
        rw [hkeep, ih (i + 1) (acc.1, acc.2 + w) h]
        simp only [stepHits, hs, Option.isSome_some, if_true]
        omega

theorem loopAux_mem (limit : Nat) (step : Nat → Verse → Option (Entry × Nat))
    (P : Entry → Prop) (hstep : ∀ i v e w, step i v = some (e, w) → P e) :
    ∀ (vs : List Verse) (i : Nat) (acc : List Entry × Nat),
      (∀ e ∈ acc.1, P e) → ∀ e ∈ (loopAux limit step i acc vs).1, P e := by
  intro vs
  induction vs with
  | nil => intro i acc hacc; exact hacc
  | cons v rest ih =>
    intro i acc hacc
    rcases hs : step i v with _ | ⟨e0, w⟩
    · rw [show loopAux limit step i acc (v :: rest) =
          loopAux limit step (i + 1) acc rest by simp [loopAux, hs]]
      exact ih (i + 1) acc hacc
    · rw [show loopAux limit step i acc (v :: rest) =
          loopAux limit step (i + 1)
            (if acc.1.length < limit then acc.1 ++ [e0] else acc.1, acc.2 + w) rest by
        simp [loopAux, hs]]
      apply ih (i + 1)
      intro e' he'
      by_cases hlt : acc.1.length < limit
      · rw [if_pos hlt] at he'
        rcases List.mem_append.mp he' with hm | hm
        · exact hacc e' hm
        · rw [List.mem_singleton.mp hm]
          exact hstep i v e0 w hs
      · rw [if_neg hlt] at he'
        exact hacc e' he'

theorem stepWeight_ge_hits (step : Nat → Verse → Option (Entry × Nat))
    (h : ∀ i v e w, step i v = some (e, w) → 1 ≤ w) :
    ∀ (vs : List Verse) (i : Nat), stepHits step i vs ≤ stepWeight step i vs := by
  intro vs
  induction vs with
  | nil => intro i; simp [stepHits, stepWeight]
  | cons v rest ih =>
    intro i
    rcases hs : step i v with _ | ⟨e, w⟩
    · simp only [stepHits, stepWeight, hs]
      simpa using ih (i + 1)
    · simp only [stepHits, stepWeight, hs, Option.isSome_some, if_true]
      have := h i v e w hs
      have := ih (i + 1)
      omega

theorem stepWeight_eq_hits (step : Nat → Verse → Option (Entry × Nat))
    (h : ∀ i v e w, step i v = some (e, w) → w = 1) :
    ∀ (vs : List Verse) (i : Nat), stepWeight step i vs = stepHits step i vs := by
  intro vs
  induction vs with
  | nil => intro i; simp [stepHits, stepWeight]
  | cons v rest ih =>
    intro i
    rcases hs : step i v with _ | ⟨e, w⟩
    · simp only [stepHits, stepWeight, hs]
      simpa using ih (i + 1)
    · simp only [stepHits, stepWeight, hs, Option.isSome_some, if_true]
      have := h i v e w hs
      have := ih (i + 1)
      omega

theorem stepHits_eq_filter (step : Nat → Verse → Option (Entry × Nat))
    (P : Verse → Bool) (h : ∀ i v, (step i v).isSome = P v) :
    ∀ (vs : List Verse) (i : Nat), stepHits step i vs = (vs.filter P).length := by
  intro vs
  induction vs with
  | nil => intro i; simp [stepHits]
  | cons v rest ih =>
    intro i
    have hstep := h i v
    rcases hp : P v with _ | _ <;> rw [hp] at hstep
    · simp only [stepHits, hstep, List.filter_cons, hp, cond_false,
        Bool.false_eq_true, if_false]
      simpa using ih (i + 1)
    · simp only [stepHits, hstep, List.filter_cons, hp, cond_true, if_true,
        List.length_cons]
      have := ih (i + 1)
      omega

theorem stepHits_ge_one (step : Nat → Verse → Option (Entry × Nat)) :
    ∀ (vs : List Verse) (i : Nat) (v : Verse), v ∈ vs →
      (∀ j, (step j v).isSome = true) → 1 ≤ stepHits step i vs := by
  intro vs
  induction vs with
  | nil => intro i v hv; simp at hv
  | cons v0 rest ih =>
    intro i v hv hsome
    rcases List.mem_cons.mp hv with hm | hm
    · simp only [stepHits]
      rw [← hm, hsome i]
      simp
    · simp only [stepHits]
      have := ih (i + 1) v hm hsome
      omega

theorem patternStep_weight {pat : CompPattern} {i : Nat} {v : Verse} {e : Entry}
    {w : Nat} (h : patternStep pat i v = some (e, w)) : 1 ≤ w := by
  unfold patternStep at h
  by_cases hm : finditer pat v.text.data = []
  · simp [hm] at h
  · simp only [hm, if_neg, not_false_iff] at h
    injection h with h
    injection h with _ h2
    rw [← h2]
    have : finditer pat v.text.data ≠ [] := hm
    have := List.length_pos.mpr this
    omega

theorem patternStep_isSome (pat : CompPattern) (i : Nat) (v : Verse) :
    (patternStep pat i v).isSome = !(finditer pat v.text.data).isEmpty := by
  unfold patternStep
  by_cases hm : finditer pat v.text.data = []
  · simp [hm]
  · simp [hm, List.isEmpty_iff]

theorem vfStep_weight {f : VFFilters} {i : Nat} {v : Verse} {e : Entry}
    {w : Nat} (h : vfStep f i v = some (e, w)) : 1 ≤ w := by
  unfold vfStep at h
  by_cases ht : v.tokens = []
  · simp [ht] at h
  · simp only [ht, if_neg, not_false_iff] at h
    by_cases hm : vfMatches f v = []
    · simp [hm] at h
    · simp only [hm, if_neg, not_false_iff] at h
      injection h with h
      injection h with _ h2
      rw [← h2]
      have := List.length_pos.mpr hm
      omega

theorem vfStep_isSome (f : VFFilters) (i : Nat) (v : Verse) :
    (vfStep f i v).isSome = !(vfMatches f v).isEmpty := by
  unfold vfStep
  by_cases ht : v.tokens = []
  · have : vfMatches f v = [] := by unfold vfMatches; rw [ht]; rfl
    simp [ht, this]
  · by_cases hm : vfMatches f v = []
    · simp [ht, hm]
    · simp [ht, hm, List.isEmpty_iff]

theorem synStep_weight {pat : List String} {i : Nat} {v : Verse} {e : Entry}
    {w : Nat} (h : synStep pat i v = some (e, w)) : w = 1 := by
  unfold synStep at h
  by_cases ht : v.tokens = []
  · simp [ht] at h
  · simp only [ht, if_neg, not_false_iff] at h
    rcases hw : winStart pat (synSeqOf v.tokens) with _ | st
    · rw [hw] at h
      simp at h
    · rw [hw] at h
      simp only [Option.some.injEq] at h
      have := congrArg Prod.snd h
      simpa using this.symm

/-- C2 amended: for the record-returning operations, total_count is at
least the number of returned entries. The operations that count matching
VERSES (the POS-window search) additionally return exactly total_count
entries whenever total_count is at most the limit; the operations that
count individual MATCHES (structural pattern search, verb-form search)
instead return one entry per matching verse, equal to the number of
matching verses whenever that number is at most the limit — their
total_count can exceed the number of returned entries even when it is at
most the limit. -/
theorem c2_total_vs_results :
    (∀ (c : Corpus) (spec : PatternSpec) (limit : Nat) (out : QueryOut),
        searchPatternWord c spec limit = PyResult.record out →
        out.results.length ≤ out.total_count ∧
        ∀ (segs : List PatternSlot) (pat : CompPattern),
          spec.segments = some segs →
          patternSegmentsToRegex segs (spec.allow_pre.getD false)
              (spec.allow_suf.getD false) = some pat →
          patMatchCount c pat ≤ limit →
          out.results.length = patMatchCount c pat) ∧
    (∀ (c : Corpus) (f : VFFilters) (limit : Nat),
        (searchVerbForms c f limit).results.length ≤
          (searchVerbForms c f limit).total_count ∧
        (vfMatchCount c f ≤ limit →
          (searchVerbForms c f limit).results.length = vfMatchCount c f)) ∧
    (∀ (c : Corpus) (q : String) (limit : Nat) (out : QueryOut),
        searchSyntaxFreeText c q limit = PyResult.record out →
        out.results.length ≤ out.total_count ∧
        (out.total_count ≤ limit → out.results.length = out.total_count)) := by
  refine ⟨?_, ?_, ?_⟩
  · intro c spec limit out h
    unfold searchPatternWord at h
    rcases hseg : spec.segments with _ | segs0
    · rw [hseg] at h
      simp at h
    · rw [hseg] at h
      rcases segs0 with _ | ⟨s0, ss⟩
      · simp at h
      · simp only [patternSegmentsToRegex] at h
        injection h with h
        set pat0 : CompPattern :=
          { slots := (s0 :: ss).map compSlotOf,
            allowPre := spec.allow_pre.getD false,
            allowSuf := spec.allow_suf.getD false }
        have hlen := loopAux_len limit (patternStep pat0) c 0 ([], 0) (by simp)
        have htot := loopAux_total limit (patternStep pat0) c 0 ([], 0)
        simp only [List.length_nil, Nat.zero_add, Nat.add_zero] at hlen htot
        have hhits := stepHits_eq_filter (patternStep pat0)
          (fun v => !(finditer pat0 v.text.data).isEmpty)
          (fun i v => patternStep_isSome pat0 i v) c 0
        have hge := stepWeight_ge_hits (patternStep pat0)
          (fun i v e w hw => patternStep_weight hw) c 0
        have hpm : patMatchCount c pat0 =
            (c.filter fun v => !(finditer pat0 v.text.data).isEmpty).length := rfl
        rw [← h]
        constructor
        · show (loopAux limit (patternStep pat0) 0 ([], 0) c).1.length ≤
            (loopAux limit (patternStep pat0) 0 ([], 0) c).2
          rw [hlen, htot]
          omega
        · intro segs pat hsegs hcomp hle
          have hsegs2 : s0 :: ss = segs := Option.some.inj hsegs
          subst hsegs2
          simp only [patternSegmentsToRegex, Option.some.injEq] at hcomp
          subst hcomp
          have hle2 : patMatchCount c pat0 ≤ limit := hle
          show (loopAux limit (patternStep pat0) 0 ([], 0) c).1.length =
            patMatchCount c pat0
          rw [hlen]
          omega
  · intro c f limit
    have hlen := loopAux_len limit (vfStep f) c 0 ([], 0) (by simp)
    have htot := loopAux_total limit (vfStep f) c 0 ([], 0)
    simp only [List.length_nil, Nat.zero_add, Nat.add_zero] at hlen htot
    have hhits := stepHits_eq_filter (vfStep f)
      (fun v => !(vfMatches f v).isEmpty) (fun i v => vfStep_isSome f i v) c 0
    have hge := stepWeight_ge_hits (vfStep f) (fun i v e w hw => vfStep_weight hw) c 0
    have hpm : vfMatchCount c f = (c.filter fun v => !(vfMatches f v).isEmpty).length :=
      rfl
    unfold searchVerbForms
    constructor
    · show (loopAux limit (vfStep f) 0 ([], 0) c).1.length ≤
        (loopAux limit (vfStep f) 0 ([], 0) c).2
      rw [hlen, htot]
      omega
    · intro hle
      show (loopAux limit (vfStep f) 0 ([], 0) c).1.length = vfMatchCount c f
      rw [hlen]
      omega
  · intro c q limit out h
    unfold searchSyntaxFreeText at h
    rcases htoks : splitQueryTokens q with _ | ⟨t0, ts⟩
    · rw [htoks] at h
      simp at h
    · rw [htoks] at h
      have hne : t0 :: ts ≠ [] := by simp
      rw [if_neg hne] at h
      injection h with h
      have hlen := loopAux_len limit (synStep (t0 :: ts)) c 0 ([], 0) (by simp)
      have htot := loopAux_total limit (synStep (t0 :: ts)) c 0 ([], 0)
      simp only [List.length_nil, Nat.zero_add, Nat.add_zero] at hlen htot
      have heq := stepWeight_eq_hits (synStep (t0 :: ts))
        (fun i v e w hw => synStep_weight hw) c 0
      rw [← h]
      constructor
      · show (loopAux limit (synStep (t0 :: ts)) 0 ([], 0) c).1.length ≤
          (loopAux limit (synStep (t0 :: ts)) 0 ([], 0) c).2
        rw [hlen, htot]
        omega
      · intro hle
        have hle2 : (loopAux limit (synStep (t0 :: ts)) 0 ([], 0) c).2 ≤ limit := hle
        rw [htot] at hle2
        show (loopAux limit (synStep (t0 :: ts)) 0 ([], 0) c).1.length =
          (loopAux limit (synStep (t0 :: ts)) 0 ([], 0) c).2
        rw [hlen, htot]
        omega

theorem c2_total_vs_results_witness :
    (searchVerbForms vfwCorpus {} 5).results.length = vfMatchCount vfwCorpus {} :=
  (c2_total_vs_results.2.1 vfwCorpus {} 5).2 (by decide)

/-- C2 counterexample: a single wildcard-letter slot on a verse containing
two letters: one matching verse is returned but total_count counts both
matches, so total_count (2) is at most the limit (50) yet differs from the
number of returned entries (1). -/
theorem c2_counterexample :
    (searchPatternWord c2corpus c2spec 50).totalOf = some 2 ∧
    (searchPatternWord c2corpus c2spec 50).resultsLen = 1 ∧
    2 ≤ 50 ∧ (1 : Nat) ≠ 2 := by
  refine ⟨by decide, by decide, by omega, by omega⟩

/-- C5 amended: searchSyntaxFreeText tokenizes on whitespace, comma, plus,
minus and greater-than, then slides a window over a per-verse sequence in
which each token contributes its FIRST-SEGMENT POS (lowercased) when it
has segments and the empty string otherwise — the token-level POS field is
not consulted and no token is skipped (unlike the section 4.2 derivation
used by the index builder). A verse whose actual sequence contains the
query window is counted and, when the limit admits any entry at all,
appears in the results. -/
theorem c5_syntax_window (c : Corpus) (q : String) (limit : Nat) (v : Verse)
    (st : Nat) (hv : v ∈ c) (hne : splitQueryTokens q ≠ [])
    (hw : winStart (splitQueryTokens q) (synSeqOf v.tokens) = some st)
    (htk : v.tokens ≠ []) (hlim : 1 ≤ limit) :
    (searchSyntaxFreeText c q limit).isRecord = true ∧
    1 ≤ ((searchSyntaxFreeText c q limit).totalOf).getD 0 ∧
    1 ≤ (searchSyntaxFreeText c q limit).resultsLen := by
  rcases htoks : splitQueryTokens q with _ | ⟨t0, ts⟩
  · exact absurd htoks hne
  · rw [htoks] at hw
    have hsome : ∀ j, (synStep (t0 :: ts) j v).isSome = true := by
      intro j
      unfold synStep
      rw [if_neg htk, hw]
      rfl
    have hhit := stepHits_ge_one (synStep (t0 :: ts)) c 0 v hv hsome
    have hlen := loopAux_len limit (synStep (t0 :: ts)) c 0 ([], 0) (by simp)
    have htot := loopAux_total limit (synStep (t0 :: ts)) c 0 ([], 0)
    simp only [List.length_nil, Nat.zero_add, Nat.add_zero] at hlen htot
    have heq := stepWeight_eq_hits (synStep (t0 :: ts))
      (fun i v e w hw => synStep_weight hw) c 0
    unfold searchSyntaxFreeText
    rw [htoks, if_neg (by simp : (t0 :: ts : List String) ≠ [])]
    refine ⟨rfl, ?_, ?_⟩
    · show 1 ≤ (some (loopAux limit (synStep (t0 :: ts)) 0 ([], 0) c).2).getD 0
      simp only [Option.getD_some, htot, heq]
      omega
    · show 1 ≤ (loopAux limit (synStep (t0 :: ts)) 0 ([], 0) c).1.length
      rw [hlen]
      omega

theorem c5_syntax_window_witness :
    (searchSyntaxFreeText c5wCorpus "p pn" 10).isRecord = true ∧
    1 ≤ ((searchSyntaxFreeText c5wCorpus "p pn" 10).totalOf).getD 0 ∧
    1 ≤ (searchSyntaxFreeText c5wCorpus "p pn" 10).resultsLen :=
  c5_syntax_window c5wCorpus "p pn" 10 c5wVerse 0 (by decide) (by decide)
    (by decide) (by decide) (by decide)

/-- C5 counterexample: the corpus verse has a first token with a
preposition segment and a second token with NO segments but token POS
"pn": the section 4.2 sequence is ["p", "pn"] and contains the query
window at offset 0, yet searchSyntaxFreeText("p pn") returns no match,
because it uses the first-segment-only sequence ["p", ""]. -/
theorem c5_counterexample :
    searchSyntaxFreeText c5corpus "p pn" 10 =
      PyResult.record { results := [], total_count := 0 } ∧
    winStart (splitQueryTokens "p pn") (extractPosSequence c5verse.tokens) =
      some 0 := by
  decide

theorem searchTextLoop_shape (ql : String) (limit : Nat) :
    ∀ (vs : List Verse) (i : Nat) (acc : List Entry),
      (∀ e ∈ acc, e.matchLabel = none ∧ e.index.isSome = true) →
      ∀ e ∈ searchTextLoop ql limit i acc vs,
        e.matchLabel = none ∧ e.index.isSome = true := by
  intro vs
  induction vs with
  | nil => intro i acc hacc; exact hacc
  | cons v rest ih =>
    intro i acc hacc
    unfold searchTextLoop
    have hext : ∀ e ∈ acc ++ [{ index := some i, verse := v : Entry }],
        e.matchLabel = none ∧ e.index.isSome = true := by
      intro e he
      rcases List.mem_append.mp he with hm | hm
      · exact hacc e hm
      · rw [List.mem_singleton.mp hm]
        exact ⟨rfl, rfl⟩
    by_cases hc : strContains (lowerS v.text) ql = true
    · rw [if_pos hc]
      by_cases hfull :
          limit ≤ (acc ++ [{ index := some i, verse := v : Entry }]).length
      · rw [if_pos hfull]
        exact hext
      · rw [if_neg hfull]
        exact ih (i + 1) _ hext
    · rw [if_neg hc]
      exact ih (i + 1) acc hacc

theorem synStep_label {pat : List String} {i : Nat} {v : Verse} {e : Entry}
    {w : Nat} (h : synStep pat i v = some (e, w)) : e.matchLabel.isSome = true := by
  unfold synStep at h
  by_cases ht : v.tokens = []
  · simp [ht] at h
  · rw [if_neg ht] at h
    rcases hw : winStart pat (synSeqOf v.tokens) with _ | st
    · rw [hw] at h
      simp at h
    · rw [hw] at h
      simp only [Option.some.injEq] at h
      have := congrArg Prod.fst h
      simp only at this
      rw [← this]
      rfl

/-- C3 amended: only some operations return the results/total record with
a match label on every entry — proved here for the indexed root search on
a found root (label "Root: r") and for the POS-window search; search_text
by contrast returns a bare list whose entries carry an index and the verse
but never a match label, and the record-returning operations fall back to
a bare empty list on empty or unknown inputs. -/
theorem c3_result_shapes :
    (∀ (c : Corpus) (root : String) (limit : Nat) (out : QueryOut),
        searchRoot c root limit = PyResult.record out →
        ∀ e ∈ out.results, e.matchLabel = some ("Root: " ++ pyStrip root)) ∧
    (∀ (c : Corpus) (q : String) (limit : Nat) (out : QueryOut),
        searchSyntaxFreeText c q limit = PyResult.record out →
        ∀ e ∈ out.results, e.matchLabel.isSome = true) ∧
    (∀ (c : Corpus) (q : String) (limit : Nat),
        ∀ e ∈ searchText c q limit, e.matchLabel = none ∧ e.index.isSome = true) := by
  refine ⟨?_, ?_, ?_⟩
  · intro c root limit out h
    unfold searchRoot at h
    by_cases he : pyStrip root = ""
    · rw [if_pos he] at h
      simp at h
    · rw [if_neg he] at h
      by_cases hl : rootIndexLocs c (pyStrip root) = []
      · rw [if_pos hl] at h
        simp at h
      · rw [if_neg hl] at h
        injection h with h
        rw [← h]
        intro e he2
        simp only [List.mem_filterMap] at he2
        obtain ⟨k, _hk, hmap⟩ := he2
        rcases hv : verseLookup c k with _ | v
        · rw [hv] at hmap
          simp at hmap
        · rw [hv] at hmap
          simp only [Option.map_some', Option.some.injEq] at hmap
          rw [← hmap]
  · intro c q limit out h
    unfold searchSyntaxFreeText at h
    rcases htoks : splitQueryTokens q with _ | ⟨t0, ts⟩
    · rw [htoks] at h
      simp at h
    · rw [htoks] at h
      rw [if_neg (by simp : (t0 :: ts : List String) ≠ [])] at h
      injection h with h
      rw [← h]
      exact loopAux_mem limit (synStep (t0 :: ts)) (fun e => e.matchLabel.isSome = true)
        (fun i v e w hw => synStep_label hw) c 0 ([], 0) (by simp)
  · intro c q limit
    exact searchTextLoop_shape (lowerS q) limit c 0 [] (by simp)

theorem c3_result_shapes_witness :
    ({ index := none, verse := c1verse, matchLabel := some ("Root: " ++ pyStrip "ر"),
       match_term := none, match_regex := none, match_count := none,
       matchesList := none : Entry }).matchLabel = some ("Root: " ++ pyStrip "ر") :=
  c3_result_shapes.1 c1corpus "ر" 10
    { results := [{ index := none, verse := c1verse,
                    matchLabel := some ("Root: " ++ pyStrip "ر") }], total_count := 1 }
    (by decide)
    { index := none, verse := c1verse, matchLabel := some ("Root: " ++ pyStrip "ر") }
    (by decide)

/-- C3 counterexample: search_text returns a bare list whose entry has no
match label at all, and search_root on an unknown root returns a bare
empty list rather than a results/total record. -/
theorem c3_counterexample :
    (searchText c3corpus "a" 10).all (fun e => e.matchLabel.isSome) = false ∧
    searchRoot c3corpus "zzz" 10 = PyResult.bare [] := by
  decide

theorem mem_dedupFirst [DecidableEq α] {l : List α} {a : α} :
    a ∈ dedupFirst l ↔ a ∈ l := by
  induction l with
  | nil => simp [dedupFirst]
  | cons b rest ih =>
    simp only [dedupFirst, List.mem_cons, List.mem_filter]
    constructor
    · rintro (h | ⟨h1, _⟩)
      · exact Or.inl h
      · exact Or.inr (ih.mp h1)
    · rintro (h | h)
      · exact Or.inl h
      · by_cases hab : a = b
        · exact Or.inl hab
        · exact Or.inr ⟨ih.mpr h, by simpa using hab⟩

theorem mem_rootIndexLocs {c : Corpus} {r : String} {k : Nat × Nat} :
    k ∈ rootIndexLocs c r ↔
      ∃ v, v ∈ c ∧ verseHasRootB r v = true ∧ verseKey v = k := by
  unfold rootIndexLocs
  rw [mem_dedupFirst]
  simp only [List.mem_map, List.mem_filter]
  constructor
  · rintro ⟨v, ⟨hv, hr⟩, hk⟩
    exact ⟨v, hv, hr, hk⟩
  · rintro ⟨v, hv, hr, hk⟩
    exact ⟨v, ⟨hv, hr⟩, hk⟩

theorem verseLookup_some {c : Corpus} {k : Nat × Nat} :
    ∀ {u : Verse}, verseLookup c k = some u → u ∈ c ∧ verseKey u = k := by
  induction c with
  | nil => intro u h; simp [verseLookup] at h
  | cons v rest ih =>
    intro u h
    unfold verseLookup at h
    rcases hr : verseLookup rest k with _ | u0
    · rw [hr] at h
      by_cases hk : verseKey v = k
      · rw [if_pos hk] at h
        injection h with h
        rw [← h]
        exact ⟨List.mem_cons_self v rest, hk⟩
      · rw [if_neg hk] at h
        simp at h
    · rw [hr] at h
      injection h with h
      rw [← h]
      obtain ⟨hm, hk⟩ := ih hr
      exact ⟨List.mem_cons_of_mem v hm, hk⟩

theorem verseLookup_of_not_mem {c : Corpus} {k : Nat × Nat}
    (h : k ∉ c.map verseKey) : verseLookup c k = none := by
  induction c with
  | nil => rfl
  | cons v rest ih =>
    simp only [List.map_cons, List.mem_cons, not_or] at h
    unfold verseLookup
    rw [ih h.2, if_neg (fun hk => h.1 hk.symm)]

theorem verseLookup_self {c : Corpus} (hnd : (c.map verseKey).Nodup) {v : Verse}
    (hv : v ∈ c) : verseLookup c (verseKey v) = some v := by
  induction c with
  | nil => simp at hv
  | cons v0 rest ih =>
    simp only [List.map_cons, List.nodup_cons] at hnd
    rcases List.mem_cons.mp hv with hm | hm
    · subst hm
      unfold verseLookup
      rw [verseLookup_of_not_mem hnd.1, if_pos rfl]
    · unfold verseLookup
      rw [ih hnd.2 hm]

/-- C1 amended: for a nonempty whitespace-trimmed root R, assuming the
corpus keys are unique and the number of indexed locations fits within the
limit, searchRootIndexed(R) includes every verse with a segment whose
TRIMMED root is R, and conversely every returned entry belongs to a verse
with at least one segment whose trimmed root is exactly R (the index trims
stored roots, so a stored root " R " is found under R while "R" itself may
not occur verbatim in any segment). -/
theorem c1_root_round_trip (c : Corpus) (R : String) (limit : Nat)
    (hne : R ≠ "") (htrim : pyStrip R = R)
    (hnd : (c.map verseKey).Nodup)
    (hlen : (rootIndexLocs c R).length ≤ limit) :
    (∀ v ∈ c, verseHasRootB R v = true →
      ((searchRoot c R limit).resultsOf.any fun e => decide (e.verse = v)) = true) ∧
    (∀ e ∈ (searchRoot c R limit).resultsOf, verseHasRootB R e.verse = true) := by
  unfold searchRoot
  rw [htrim, if_neg hne]
  by_cases hl : rootIndexLocs c R = []
  · rw [if_pos hl]
    constructor
    · intro v hv hroot
      exfalso
      have hk : verseKey v ∈ rootIndexLocs c R :=
        mem_rootIndexLocs.mpr ⟨v, hv, hroot, rfl⟩
      rw [hl] at hk
      simp at hk
    · intro e he
      simp [PyResult.resultsOf] at he
  · rw [if_neg hl]
    have hperm := List.perm_insertionSort
      (fun a b => pairLe a b = true) (rootIndexLocs c R)
    have htake : (List.insertionSort (fun a b => pairLe a b = true)
        (rootIndexLocs c R)).take limit =
        List.insertionSort (fun a b => pairLe a b = true) (rootIndexLocs c R) :=
      List.take_of_length_le (by rw [hperm.length_eq]; exact hlen)
    simp only [PyResult.resultsOf]
    rw [htake]
    constructor
    · intro v hv hroot
      have hk : verseKey v ∈ rootIndexLocs c R :=
        mem_rootIndexLocs.mpr ⟨v, hv, hroot, rfl⟩
      have hk2 : verseKey v ∈ List.insertionSort
          (fun a b => pairLe a b = true) (rootIndexLocs c R) :=
        (List.mem_insertionSort _).mpr hk
      rw [List.any_eq_true]
      refine ⟨{ verse := v, matchLabel := some ("Root: " ++ R),
                match_term := findMatchForm v R }, ?_, by simp⟩
      rw [List.mem_filterMap]
      exact ⟨verseKey v, hk2, by rw [verseLookup_self hnd hv]; rfl⟩
    · intro e he
      rw [List.mem_filterMap] at he
      obtain ⟨k, hk, hmap⟩ := he
      have hk2 : k ∈ rootIndexLocs c R := (List.mem_insertionSort _).mp hk
      obtain ⟨v, hvmem, hroot, hkey⟩ := mem_rootIndexLocs.mp hk2
      rcases hv : verseLookup c k with _ | u
      · rw [hv] at hmap
        simp at hmap
      · rw [hv] at hmap
        simp only [Option.map_some', Option.some.injEq] at hmap
        have hself : verseLookup c (verseKey v) = some v := verseLookup_self hnd hvmem
        rw [hkey, hv] at hself
        injection hself with hself
        rw [← hmap]
        show verseHasRootB R u = true
        rw [hself]
        exact hroot

theorem c1_root_round_trip_witness :
    ((searchRoot c1wCorpus "رحم" 10).resultsOf.any
      fun e => decide (e.verse = c1wVerse)) = true :=
  (c1_root_round_trip c1wCorpus "رحم" 10 (by decide) (by decide) (by decide)
    (by decide)).1 c1wVerse (by decide) (by decide)

/-- C1 counterexample: a segment stores the root with a trailing space;
the index trims it, so searchRootIndexed("ر") returns the verse although
no segment root is exactly the string "ر". -/
theorem c1_counterexample :
    ((searchRoot c1corpus "ر" 10).resultsOf.any
      fun e => decide (e.verse = c1verse)) = true ∧
    verseHasExactRootB "ر" c1verse = false := by
  decide
